import Mathlib

/-!
Shallow embedding of the AICI token-level constraint engine fragment:
the grammar-driven `TokenParser::mid_process` step
(src/controllers/guidance_ctrl/src/tokenparser.rs), the controller ABI
types (src/aici_abi/src/lib.rs) and the `uppercase` example controller
(src/uppercase/src/main.rs).

The Earley parser (`earley.rs`), the token trie (`toktree.rs`) and the
recognizer module (`recognizer.rs`) are collaborators of this fragment
whose sources are not part of the fragment; their interfaces are
abstracted as function-valued parameters (an `Env` record), or, where a
concrete behaviour is needed, modelled from the specification (each such
definition carries a doc comment saying so).
-/

namespace Aici

/-- Decidable equality for `Except`, used to evaluate `mid_process` runs
on concrete inputs. -/
instance {ε α : Type} [DecidableEq ε] [DecidableEq α] : DecidableEq (Except ε α) :=
  fun x y =>
    match x, y with
    | .ok a, .ok b =>
      if h : a = b then isTrue (by rw [h])
      else isFalse (by intro hc; cases hc; exact h rfl)
    | .error a, .error b =>
      if h : a = b then isTrue (by rw [h])
      else isFalse (by intro hc; cases hc; exact h rfl)
    | .ok _, .error _ => isFalse (by intro hc; cases hc)
    | .error _, .ok _ => isFalse (by intro hc; cases hc)

/-- Token ids (`TokenId = u32` in the source); modelled as `Nat`. -/
abbrev TokenId := Nat

/-- Bytes (`u8` in the source); modelled as `Nat` (only equality,
decoding and range tests are used, none of which overflow). -/
abbrev Byte := Nat

/-- `ParseResult` returned by `Parser::scan` (Accept / Reject / EndOfInput),
per the spec's parser interface. -/
inductive ParseResult where
  | Accept
  | Reject
  | EndOfInput
deriving DecidableEq, Repr

/-- The immutable per-vocabulary data the token parser reads from the
token trie: per-token byte strings, the EOS id and MAX_TOKEN_LEN. -/
structure TokTrie where
  token : TokenId → List Byte
  eosToken : TokenId
  maxTokenLen : Nat

/-- `TokTrie::decode`: byte concatenation of the tokens' byte strings. -/
def TokTrie.decode (trie : TokTrie) (ts : List TokenId) : List Byte :=
  (ts.map trie.token).flatten

/-- Modelled from the spec: `MidProcessArg` carries "the ids just observed
since the last call (`tokens`)" (§4.4); the copy of `aici_abi` in the
fragment predates this field. -/
structure MidProcessArg where
  tokens : List TokenId
deriving DecidableEq

/-- `MidProcessResult` (src/aici_abi/src/lib.rs): Stop, SampleWithBias or
Splice.  The token set is modelled as a list of allowed ids. -/
inductive MidProcessResult where
  | Stop
  | SampleWithBias (allowedTokens : List TokenId)
  | Splice (backtrack : Nat) (ffTokens : List TokenId)
deriving DecidableEq, Repr

/-- The collaborators `TokenParser::mid_process` calls, abstracted as
pure functions over an opaque parser state `P`: the tokenizer env
(`tokenize_bytes`), and the Earley parser operations used in
tokenparser.rs.  `applyTokens` returns the new parser state and the
rejection message (`""` on full acceptance); `scan` returns the new
state and a `ParseResult`; `hasValidExtensions` and `computeBiasExt`
are the trie operations, speculative over the parser (the spec requires
they roll the parser back), hence pure in `P`. -/
structure Env (P : Type) where
  trie : TokTrie
  tokenizeBytes : List Byte → List TokenId
  applyTokens : P → List TokenId → P × String
  forceBytes : P → P
  getBytes : P → List Byte
  scan : P → Byte → P × ParseResult
  hasValidExtensions : P → List Byte → Bool
  computeBiasExt : P → List Byte → List TokenId

/-- The mutable state of `TokenParser`: the parser and the tokens
currently in the KV cache. -/
structure TokenParser (P : Type) where
  parser : P
  llmTokens : List TokenId
deriving DecidableEq

/-- Modelled from the spec: `arg.save_tokens(&mut self.llm_tokens)`
appends the newly observed tokens to `llm_tokens` ("Append new tokens to
`llm_tokens`", §4.4 step 1). -/
def updatedLlm {P : Type} (st : TokenParser P) (arg : MidProcessArg) : List TokenId :=
  st.llmTokens ++ arg.tokens

/-- Parser state after `apply_tokens` (result message discarded by the
caller apart from logging) followed by `force_bytes`. -/
def parserAfterForce {P : Type} (env : Env P) (st : TokenParser P)
    (arg : MidProcessArg) : P :=
  env.forceBytes (env.applyTokens st.parser (updatedLlm st arg)).1

/-- `full_grm_bytes = self.parser.get_bytes()`. -/
def fullGrmBytes {P : Type} (env : Env P) (st : TokenParser P)
    (arg : MidProcessArg) : List Byte :=
  env.getBytes (parserAfterForce env st arg)

/-- `grm_tokens = self.token_env.tokenize_bytes(&full_grm_bytes)` before
the ambiguous-suffix chop. -/
def grmTokensRaw {P : Type} (env : Env P) (st : TokenParser P)
    (arg : MidProcessArg) : List TokenId :=
  env.tokenizeBytes (fullGrmBytes env st arg)

/-- The ambiguous-suffix chop loop of `mid_process` (tokenparser.rs lines
67-83), iterating over the reversed `grm_tokens`: `suff` accumulates the
byte suffix by prepending each token's bytes; the loop breaks once
`suff` exceeds `maxLen`, and otherwise records `(idx+1, suff.length)`
whenever `hve suff` holds.  `acc` is the `(chop_tokens, chop_bytes)`
accumulator. -/
def chopLoop (tok : TokenId → List Byte) (maxLen : Nat) (hve : List Byte → Bool) :
    List TokenId → List Byte → Nat → Nat × Nat → Nat × Nat
  | [], _, _, acc => acc
  | t :: rest, suff, idx, acc =>
    let suff' := tok t ++ suff
    if suff'.length > maxLen then acc
    else
      chopLoop tok maxLen hve rest suff' (idx + 1)
        (if hve suff' then (idx + 1, suff'.length) else acc)

/-- The `(chop_tokens, chop_bytes)` pair computed by `mid_process`. -/
def chopPair {P : Type} (env : Env P) (st : TokenParser P)
    (arg : MidProcessArg) : Nat × Nat :=
  chopLoop env.trie.token env.trie.maxTokenLen
    (env.hasValidExtensions (parserAfterForce env st arg))
    (grmTokensRaw env st arg).reverse [] 0 (0, 0)

/-- `grm_tokens.truncate(grm_tokens.len() - chop_tokens)`. -/
def grmTokens {P : Type} (env : Env P) (st : TokenParser P)
    (arg : MidProcessArg) : List TokenId :=
  let g := grmTokensRaw env st arg
  g.take (g.length - (chopPair env st arg).1)

/-- The splice-detection scan (tokenparser.rs lines 88-101): the first
index `idx < grm.length` at which `llm_tokens.get(idx) != grm_tokens.get(idx)`
(`none` when the whole of `grm` agrees with `llm`).  `i` is the index of
the current head. -/
def firstDisagreement : List TokenId → List TokenId → Nat → Option Nat
  | _, [], _ => none
  | [], _ :: _, i => some i
  | l :: ls, g :: gs, i =>
    if l = g then firstDisagreement ls gs (i + 1) else some i

/-- `llm_suffix`: bytes of the LLM tokens beyond the (chopped) grammar
tokens. -/
def llmSuffix {P : Type} (env : Env P) (st : TokenParser P)
    (arg : MidProcessArg) : List Byte :=
  env.trie.decode ((updatedLlm st arg).drop (grmTokens env st arg).length)

/-- `grm_suffix`: the last `chop_bytes` bytes of `full_grm_bytes`. -/
def grmSuffix {P : Type} (env : Env P) (st : TokenParser P)
    (arg : MidProcessArg) : List Byte :=
  let fb := fullGrmBytes env st arg
  fb.drop (fb.length - (chopPair env st arg).2)

/-- Feeding extra LLM bytes into the parser one by one (tokenparser.rs
lines 120-125); a `Reject` from `scan` is the panic `"rejected byte"`. -/
def scanBytes {P : Type} (env : Env P) : P → List Byte → Except String P
  | p, [] => .ok p
  | p, b :: rest =>
    let (p', r) := env.scan p b
    if r = ParseResult.Reject then .error "rejected byte"
    else scanBytes env p' rest

/-- `TokenParser::mid_process` (tokenparser.rs lines 41-152), as a pure
function from the environment, the mutable state and the argument to
either a panic message (`.error`) or the result together with the updated
state.  Logging and timing calls in the source do not affect the result
and are omitted. -/
def midProcess {P : Type} (env : Env P) (st : TokenParser P) (arg : MidProcessArg) :
    Except String (MidProcessResult × TokenParser P) :=
  let llm := updatedLlm st arg
  let p := parserAfterForce env st arg
  if env.trie.eosToken ∈ arg.tokens then
    .ok (.Stop, ⟨p, llm⟩)
  else
    let grm := grmTokens env st arg
    match firstDisagreement llm grm 0 with
    | some idx => .ok (.Splice (llm.length - idx) (grm.drop idx), ⟨p, llm⟩)
    | none =>
      let ls := llmSuffix env st arg
      let gs := grmSuffix env st arg
      if gs.length < ls.length then
        if gs.isPrefixOf ls then
          match scanBytes env p (ls.drop gs.length) with
          | .ok p' => .ok (.SampleWithBias (env.computeBiasExt p' []), ⟨p', llm⟩)
          | .error e => .error e
        else .error "llm_suffix/grm_suffix mismatch (grm<=llm)"
      else
        if ls.isPrefixOf gs then
          .ok (.SampleWithBias (env.computeBiasExt p (gs.drop ls.length)), ⟨p, llm⟩)
        else .error "llm_suffix/grm_suffix mismatch (grm>llm)"

/-- Length of the longest common prefix of two token lists. -/
def lcpLength : List TokenId → List TokenId → Nat
  | a :: as_, b :: bs => if a = b then lcpLength as_ bs + 1 else 0
  | _, _ => 0

/-- The tokens of `g` from position `g.length - k` on: the last `k`
tokens. -/
def lastTokens (g : List TokenId) (k : Nat) : List TokenId :=
  g.drop (g.length - k)

/-- The byte string formed by the last `k` tokens of `g`. -/
def lastBytes (tok : TokenId → List Byte) (g : List TokenId) (k : Nat) : List Byte :=
  ((lastTokens g k).map tok).flatten

/-- The claim's condition on a chop amount `k`: `1 ≤ k ≤ |g|`, the byte
string of the last `k` tokens fits in `maxLen`, and the trie reports a
valid extension for it. -/
def goodChop (tok : TokenId → List Byte) (maxLen : Nat) (hve : List Byte → Bool)
    (g : List TokenId) (k : Nat) : Bool :=
  decide (1 ≤ k) && decide (k ≤ g.length) &&
    decide ((lastBytes tok g k).length ≤ maxLen) && hve (lastBytes tok g k)

/-- The value of the chop loop's `suff` accumulator after processing `j`
more tokens of the reversed list `rest`, starting from `suff`. -/
def sfx (tok : TokenId → List Byte) : List TokenId → List Byte → Nat → List Byte
  | _, suff, 0 => suff
  | [], suff, _ + 1 => suff
  | t :: rest, suff, j + 1 => sfx tok rest (tok t ++ suff) j

end Aici

namespace Uppercase

open Aici

/-- Special tokens (`SpecialToken` in toktree.rs, not part of the
fragment); modelled from the spec: "a small number of special ids (EOS,
BOS, padding) are tagged" (§3). -/
inductive SpecialToken where
  | EndOfSentence
  | BeginningOfSentence
  | Padding
deriving DecidableEq, Repr

/-- `QuadUpper::initial` (uppercase/src/main.rs). -/
def QuadUpper.initial : Nat := 0

/-- `QuadUpper::append`: the state counts emitted bytes. -/
def QuadUpper.append (state : Nat) (_byte : Byte) : Nat := state + 1

/-- `u8::is_ascii_uppercase`: `b` is in `b'A'..=b'Z'`. -/
def isAsciiUppercase (b : Byte) : Bool := 65 ≤ b && b ≤ 90

/-- `QuadUpper::byte_allowed`. -/
def QuadUpper.byteAllowed (state : Nat) (byte : Byte) : Bool :=
  if state % 4 == 0 then isAsciiUppercase byte else true

/-- `QuadUpper::special_allowed`: `EndOfSentence => false, _ => false`. -/
def QuadUpper.specialAllowed (_state : Nat) (tok : SpecialToken) : Bool :=
  match tok with
  | .EndOfSentence => false
  | _ => false

/-- The vocabulary data the uppercase controller's `TokTrie` is built
from: regular entries (id, bytes) reachable by byte traversal, and the
special ids (EOS among them) that are not. -/
structure UVocab where
  entries : List (TokenId × List Byte)
  specials : List (TokenId × SpecialToken)
  eosToken : TokenId

/-- Whether a recognizer starting at `state` accepts every byte of `bs`
in order (advancing by `append`). -/
def bytesAllowed (state : Nat) : List Byte → Bool
  | [] => true
  | b :: rest =>
    QuadUpper.byteAllowed state b && bytesAllowed (QuadUpper.append state b) rest

/-- Modelled from the spec: `TokTrie::compute_bias` (§4.1) — the ids of
the regular vocabulary entries whose byte strings the recognizer accepts
from its current state, followed by the special ids whose kind
`special_allowed` admits (special tokens are not reachable by byte
traversal, trie invariant (iii)). -/
def computeBias (voc : UVocab) (state : Nat) : List TokenId :=
  (voc.entries.filter (fun e => bytesAllowed state e.2)).map (·.1) ++
    (voc.specials.filter (fun s => QuadUpper.specialAllowed state s.2)).map (·.1)

/-- The `Runner` state of the uppercase controller: the token log and the
recognizer state (the current `QuadUpper` state held by the
`StackRecognizer`; the trie data lives in `UVocab`). -/
structure Runner where
  tokens : List TokenId
  recognizer : Nat
deriving DecidableEq, Repr

/-- `PostProcessArg { tokens }` (src/aici_abi/src/lib.rs). -/
structure PostProcessArg where
  tokens : List TokenId
deriving DecidableEq

/-- Modelled from the spec: `PostProcessResult::from_arg` "will translate
generation of EOS token into Stop instruction" (comment in
uppercase/src/main.rs); the result carries the stop flag. -/
structure PostProcessResult where
  stop : Bool
deriving DecidableEq

/-- Modelled from the spec: `TokTrie::append_tokens` advances the
recognizer by every byte of every token, in order (§4.2, §4.5). -/
def appendTokens (voc : UVocab) (state : Nat) (ts : List TokenId) : Nat :=
  ts.foldl (fun s t =>
    (voc.entries.lookup t |>.getD []).foldl (fun s' b => QuadUpper.append s' b) s) state

/-- `Runner::mid_process` (uppercase/src/main.rs lines 77-89): Stop after
more than 50 recorded tokens, otherwise sample with the computed bias. -/
def Runner.midProcess (voc : UVocab) (r : Runner) (_arg : MidProcessArg) :
    MidProcessResult :=
  if r.tokens.length > 50 then
    .Stop
  else
    .SampleWithBias (computeBias voc r.recognizer)

/-- `Runner::post_process` (uppercase/src/main.rs lines 91-98): extend the
token log, advance the recognizer, and translate EOS into stop. -/
def Runner.postProcess (voc : UVocab) (r : Runner) (arg : PostProcessArg) :
    Runner × PostProcessResult :=
  ({ tokens := r.tokens ++ arg.tokens,
     recognizer := appendTokens voc r.recognizer arg.tokens },
   { stop := voc.eosToken ∈ arg.tokens })

/-- The default `AiciVm::post_process` (src/aici_abi/src/lib.rs lines
123-125): returns the empty result and touches no state; the state type
is abstract. -/
def defaultPostProcess {σ : Type} (s : σ) (_arg : PostProcessArg) :
    σ × PostProcessResult :=
  (s, { stop := false })

end Uppercase

namespace Aici

/-- A small concrete vocabulary for evaluating `midProcess`: token `t`
decodes to the single byte `t`, EOS is id 99, MAX_TOKEN_LEN is 16. -/
def exTrie : TokTrie :=
  { token := fun t => [t], eosToken := 99, maxTokenLen := 16 }

/-- A concrete environment (parser state `Unit`) whose grammar forces the
bytes `[0, 9]`; the tokenizer is the identity on single-byte tokens and
`has_valid_extensions` never holds (no chop). -/
def ex1Env : Env Unit :=
  { trie := exTrie
    tokenizeBytes := fun bs => bs
    applyTokens := fun p _ => (p, "")
    forceBytes := fun p => p
    getBytes := fun _ => [0, 9]
    scan := fun p _ => (p, .Accept)
    hasValidExtensions := fun _ _ => false
    computeBiasExt := fun _ _ => [7] }

/-- State with two tokens already in the KV cache. -/
def ex1St : TokenParser Unit := ⟨(), [0, 1]⟩

/-- One newly observed token. -/
def ex1Arg : MidProcessArg := ⟨[2]⟩

/-- An environment whose `apply_tokens` reports a non-empty rejection
message while the grammar forces nothing. -/
def ex2Env : Env Unit :=
  { ex1Env with
    applyTokens := fun p _ => (p, "rejected at byte 0")
    getBytes := fun _ => []
    tokenizeBytes := fun _ => [] }

/-- An environment that forces bytes `[3, 4]` and always reports valid
extensions, so the whole forced suffix is chopped. -/
def ex5Env : Env Unit :=
  { ex1Env with
    getBytes := fun _ => [3, 4]
    hasValidExtensions := fun _ _ => true }

/-- `mid_process` with the rejection message of `apply_tokens` scrubbed
to the empty string (the accepted-state component is kept). -/
def scrubApplyMsg {P : Type} (env : Env P) : Env P :=
  { env with applyTokens := fun p ts => ((env.applyTokens p ts).1, "") }

end Aici

namespace Uppercase

/-- A small concrete vocabulary for the uppercase controller: two regular
tokens and the special EOS id 99. -/
def exVoc : UVocab :=
  { entries := [(1, [65]), (2, [66, 67])]
    specials := [(99, .EndOfSentence)]
    eosToken := 99 }

/-- A runner state that has already recorded 51 tokens (and hence is
stopped). -/
def exStoppedR : Runner := ⟨List.replicate 51 1, 51⟩

/-- The fresh runner state: empty token log, initial recognizer state. -/
def exRunner0 : Runner := ⟨[], QuadUpper.initial⟩

end Uppercase

namespace Aici

theorem lcpLength_nil_left (l : List TokenId) : lcpLength [] l = 0 := by
  cases l <;> rfl

theorem lcpLength_cons (a b : TokenId) (as_ bs : List TokenId) :
    lcpLength (a :: as_) (b :: bs) =
      if a = b then lcpLength as_ bs + 1 else 0 := rfl

theorem firstDisagreement_nil_right (llm : List TokenId) (i : Nat) :
    firstDisagreement llm [] i = none := by
  cases llm <;> rfl

theorem firstDisagreement_nil_left (g : TokenId) (gs : List TokenId) (i : Nat) :
    firstDisagreement [] (g :: gs) i = some i := rfl

theorem firstDisagreement_cons (l g : TokenId) (ls gs : List TokenId) (i : Nat) :
    firstDisagreement (l :: ls) (g :: gs) i =
      if l = g then firstDisagreement ls gs (i + 1) else some i := rfl

/-- When the splice scan fires, the index it fires at is the length of
the longest common prefix, and that length is strictly inside `grm`. -/
theorem firstDisagreement_some_eq {llm grm : List TokenId} {i j : Nat}
    (h : firstDisagreement llm grm i = some j) :
    j = i + lcpLength llm grm ∧ lcpLength llm grm < grm.length := by
  induction grm generalizing llm i with
  | nil => rw [firstDisagreement_nil_right] at h; exact absurd h (by simp)
  | cons g gs ih =>
    cases llm with
    | nil =>
      rw [firstDisagreement_nil_left] at h
      obtain rfl : i = j := by simpa using h
      simp [lcpLength_nil_left]
    | cons l ls =>
      rw [firstDisagreement_cons] at h
      by_cases hl : l = g
      · rw [if_pos hl] at h
        obtain ⟨h1, h2⟩ := ih h
        refine ⟨by rw [h1, lcpLength_cons, if_pos hl]; omega, ?_⟩
        rw [lcpLength_cons, if_pos hl]
        simpa using h2
      · rw [if_neg hl] at h
        obtain rfl : i = j := by simpa using h
        simp [lcpLength_cons, hl]

/-- Inversion of `midProcess` on a `Splice` result. -/
theorem midProcess_splice_inv {P : Type} {env : Env P} {st : TokenParser P}
    {arg : MidProcessArg} {b : Nat} {ff : List TokenId} {st' : TokenParser P}
    (h : midProcess env st arg = .ok (.Splice b ff, st')) :
    ∃ idx, firstDisagreement (updatedLlm st arg) (grmTokens env st arg) 0 = some idx ∧
      b = (updatedLlm st arg).length - idx ∧
      ff = (grmTokens env st arg).drop idx ∧
      st' = ⟨parserAfterForce env st arg, updatedLlm st arg⟩ := by
  simp only [midProcess] at h
  split at h
  · simp at h
  · split at h
    · next idx heq =>
      refine ⟨idx, heq, ?_⟩
      simp only [Except.ok.injEq, Prod.mk.injEq, MidProcessResult.Splice.injEq] at h
      exact ⟨h.1.1.symm, h.1.2.symm, h.2.symm⟩
    · split at h
      · split at h
        · split at h <;> simp_all
        · simp at h
      · split at h <;> simp at h

end Aici

namespace Aici

/-- C1 (counterexample): on a concrete run, `mid_process` returns
`Splice(2, [9])` while the longest common token prefix of `llm_tokens =
[0, 1, 2]` and the chopped `grm_tokens = [0, 9]` has length 1: the
backtrack is not the LCP length. -/
theorem c1_backtrack_not_lcp :
    midProcess ex1Env ex1St ex1Arg = .ok (.Splice 2 [9], ⟨(), [0, 1, 2]⟩) ∧
    lcpLength (updatedLlm ex1St ex1Arg) (grmTokens ex1Env ex1St ex1Arg) = 1 ∧
    (2 : Nat) ≠ 1 := by decide

/-- C1 (amended): whenever `mid_process` returns `Splice(backtrack,
ff_tokens)`, `backtrack` equals the length of `llm_tokens` minus the
length of the longest common token prefix of `llm_tokens` and the
chopped `grm_tokens`, and `ff_tokens` is the remainder of `grm_tokens`
from that first disagreeing index onward. -/
theorem c1_splice_backtrack {P : Type} {env : Env P} {st : TokenParser P}
    {arg : MidProcessArg} {b : Nat} {ff : List TokenId} {st' : TokenParser P}
    (h : midProcess env st arg = .ok (.Splice b ff, st')) :
    b = (updatedLlm st arg).length -
        lcpLength (updatedLlm st arg) (grmTokens env st arg) ∧
    ff = (grmTokens env st arg).drop
        (lcpLength (updatedLlm st arg) (grmTokens env st arg)) := by
  obtain ⟨idx, heq, hb, hff, -⟩ := midProcess_splice_inv h
  obtain ⟨h1, -⟩ := firstDisagreement_some_eq heq
  rw [Nat.zero_add] at h1
  subst h1
  exact ⟨hb, hff⟩

theorem c1_splice_backtrack_witness :
    midProcess ex1Env ex1St ex1Arg = .ok (.Splice 2 [9], ⟨(), [0, 1, 2]⟩) ∧
    ((2 : Nat) = (updatedLlm ex1St ex1Arg).length -
        lcpLength (updatedLlm ex1St ex1Arg) (grmTokens ex1Env ex1St ex1Arg) ∧
      [9] = (grmTokens ex1Env ex1St ex1Arg).drop
        (lcpLength (updatedLlm ex1St ex1Arg) (grmTokens ex1Env ex1St ex1Arg))) :=
  ⟨by decide,
   c1_splice_backtrack
     (by decide :
       midProcess ex1Env ex1St ex1Arg = .ok (.Splice 2 [9], ⟨(), [0, 1, 2]⟩))⟩

/-- C2 (counterexample): on a concrete run whose `apply_tokens` reports a
non-empty rejection message, `mid_process` does not stop: it proceeds and
returns `SampleWithBias`. -/
theorem c2_rejection_not_fatal :
    (ex2Env.applyTokens () [5]).2 ≠ "" ∧
    midProcess ex2Env ⟨(), []⟩ ⟨[5]⟩ =
      .ok (.SampleWithBias [7], ⟨(), [5]⟩) := by decide

/-- `scanBytes` reads only the `scan` field, which scrubbing preserves. -/
theorem scanBytes_scrub {P : Type} (env : Env P) (p : P) (bs : List Byte) :
    scanBytes (scrubApplyMsg env) p bs = scanBytes env p bs := by
  induction bs generalizing p with
  | nil => rfl
  | cons b rest ih =>
    have hscan : (scrubApplyMsg env).scan = env.scan := rfl
    simp only [scanBytes, hscan, ih]

/-- C2 (amended): `mid_process` ignores the rejection message returned by
`apply_tokens` entirely — scrubbing it to the empty string changes
nothing about the result or the updated state. -/
theorem c2_rejection_ignored {P : Type} (env : Env P) (st : TokenParser P)
    (arg : MidProcessArg) :
    midProcess (scrubApplyMsg env) st arg = midProcess env st arg := by
  simp only [midProcess, scanBytes_scrub]
  rfl

/-- C3: whenever the observed tokens contain the EOS id, `mid_process`
returns `Stop` (with the state advanced through `apply_tokens` and
`force_bytes`), regardless of the parser state and of the rejection
message. -/
theorem c3_eos_stop {P : Type} (env : Env P) (st : TokenParser P)
    (arg : MidProcessArg) (h : env.trie.eosToken ∈ arg.tokens) :
    midProcess env st arg =
      .ok (.Stop, ⟨parserAfterForce env st arg, updatedLlm st arg⟩) := by
  simp only [midProcess]
  rw [if_pos h]

theorem c3_eos_stop_witness :
    ex1Env.trie.eosToken ∈ ([99] : List TokenId) ∧
    midProcess ex1Env ex1St ⟨[99]⟩ =
      .ok (.Stop, ⟨parserAfterForce ex1Env ex1St ⟨[99]⟩, updatedLlm ex1St ⟨[99]⟩⟩) :=
  ⟨by decide, c3_eos_stop ex1Env ex1St ⟨[99]⟩ (by decide)⟩

/-- C4: whenever `mid_process` returns `Splice(backtrack, ff_tokens)`,
`backtrack` is at most the length of `llm_tokens`, and it is never the
case that `backtrack = 0` with `ff_tokens` empty (indeed `ff_tokens` is
never empty). -/
theorem c4_splice_invariant {P : Type} {env : Env P} {st : TokenParser P}
    {arg : MidProcessArg} {b : Nat} {ff : List TokenId} {st' : TokenParser P}
    (h : midProcess env st arg = .ok (.Splice b ff, st')) :
    b ≤ (updatedLlm st arg).length ∧ ¬(b = 0 ∧ ff = []) := by
  obtain ⟨idx, heq, hb, hff, -⟩ := midProcess_splice_inv h
  obtain ⟨h1, hlt⟩ := firstDisagreement_some_eq heq
  have hfflen : 0 < ff.length := by
    rw [hff, List.length_drop]
    omega
  refine ⟨hb ▸ Nat.sub_le _ _, ?_⟩
  rintro ⟨-, hffnil⟩
  rw [hffnil] at hfflen
  simp at hfflen

theorem c4_splice_invariant_witness :
    midProcess ex1Env ex1St ex1Arg = .ok (.Splice 2 [9], ⟨(), [0, 1, 2]⟩) ∧
    ((2 : Nat) ≤ (updatedLlm ex1St ex1Arg).length ∧
      ¬((2 : Nat) = 0 ∧ ([9] : List TokenId) = [])) :=
  ⟨by decide,
   c4_splice_invariant
     (by decide :
       midProcess ex1Env ex1St ex1Arg = .ok (.Splice 2 [9], ⟨(), [0, 1, 2]⟩))⟩

/-- C7: `mid_process` is deterministic — it is a pure function of the
environment (tokenizer/vocabulary and parser semantics), the state
(parser, `llm_tokens`) and the observed tokens; identical inputs give
identical results. -/
theorem c7_deterministic {P : Type} (env : Env P) (st1 st2 : TokenParser P)
    (arg1 arg2 : MidProcessArg) (h1 : st1 = st2) (h2 : arg1 = arg2) :
    midProcess env st1 arg1 = midProcess env st2 arg2 := by
  rw [h1, h2]

theorem c7_deterministic_witness :
    midProcess ex1Env ex1St ex1Arg = midProcess ex1Env ex1St ex1Arg :=
  c7_deterministic ex1Env ex1St ex1St ex1Arg ex1Arg rfl rfl

end Aici

namespace Uppercase

open Aici

/-- C9: the `QuadUpper` recognizer has `initial = 0`, `append` increments
the state for every byte, and `byte_allowed(state, b)` holds iff
`state % 4 ≠ 0` or `b` is an ASCII uppercase letter. -/
theorem c9_quadUpper_recognizer :
    QuadUpper.initial = 0 ∧
    (∀ s b, QuadUpper.append s b = s + 1) ∧
    (∀ s b, QuadUpper.byteAllowed s b = true ↔
      (s % 4 ≠ 0 ∨ isAsciiUppercase b = true)) := by
  refine ⟨rfl, fun _ _ => rfl, fun s b => ?_⟩
  by_cases h : s % 4 = 0 <;> simp [QuadUpper.byteAllowed, h]

/-- C10: the uppercase controller's `mid_process` returns `Stop` iff more
than 50 tokens are recorded; otherwise it returns `SampleWithBias` with
the set computed by `compute_bias`; it never returns `Splice`; and since
`QuadUpper::special_allowed` is constantly false, EOS is never in the
allowed set (EOS being a special id, not a regular vocabulary entry). -/
theorem c10_uppercase_midProcess (voc : UVocab) (r : Runner) (arg : MidProcessArg)
    (hwf : ∀ e ∈ voc.entries, e.1 ≠ voc.eosToken) :
    (Runner.midProcess voc r arg = .Stop ↔ 50 < r.tokens.length) ∧
    (r.tokens.length ≤ 50 →
      Runner.midProcess voc r arg =
        .SampleWithBias (computeBias voc r.recognizer)) ∧
    (∀ b ff, Runner.midProcess voc r arg ≠ .Splice b ff) ∧
    (∀ s tok, QuadUpper.specialAllowed s tok = false) ∧
    voc.eosToken ∉ computeBias voc r.recognizer := by
  have hspec : ∀ (s : Nat) (tok : SpecialToken),
      QuadUpper.specialAllowed s tok = false := by
    intro s tok
    cases tok <;> rfl
  refine ⟨?_, ?_, ?_, hspec, ?_⟩
  · by_cases h : 50 < r.tokens.length <;> simp [Runner.midProcess, h]
  · intro hle
    simp [Runner.midProcess, Nat.not_lt.mpr hle]
  · intro b ff
    by_cases h : 50 < r.tokens.length <;> simp [Runner.midProcess, h]
  · intro hmem
    simp only [computeBias, List.mem_append, List.mem_map, List.mem_filter] at hmem
    rcases hmem with ⟨e, ⟨he, -⟩, heq⟩ | ⟨s, ⟨-, hs⟩, -⟩
    · exact hwf e he heq
    · rw [hspec] at hs
      simp at hs

theorem c10_uppercase_midProcess_witness :
    Runner.midProcess exVoc exRunner0 ⟨[]⟩ =
      .SampleWithBias (computeBias exVoc exRunner0.recognizer) ∧
    exVoc.eosToken ∉ computeBias exVoc exRunner0.recognizer :=
  ⟨(c10_uppercase_midProcess exVoc exRunner0 ⟨[]⟩ (by decide)).2.1 (by decide),
   (c10_uppercase_midProcess exVoc exRunner0 ⟨[]⟩ (by decide)).2.2.2.2⟩

/-- C8 (counterexample): a stopped uppercase runner (51 recorded tokens,
so `mid_process` returns `Stop`) is modified by a subsequent
`post_process` carrying a token — the call is not a no-op. -/
theorem c8_post_not_noop :
    Runner.midProcess exVoc exStoppedR ⟨[]⟩ = .Stop ∧
    (Runner.postProcess exVoc exStoppedR ⟨[2]⟩).1 ≠ exStoppedR := by decide

/-- C8 (amended): once the uppercase controller has stopped, it stays
stopped — `post_process` only appends tokens, so `mid_process` still
returns `Stop` afterwards; a `post_process` with empty tokens leaves the
state unchanged, and the default `AiciVm::post_process` never touches
state; but a `post_process` with nonempty tokens does extend the token
log. -/
theorem c8_stop_persistent (voc : UVocab) (r : Runner) (arg arg' : MidProcessArg)
    (parg : PostProcessArg) (h : Runner.midProcess voc r arg = .Stop) :
    Runner.midProcess voc (Runner.postProcess voc r parg).1 arg' = .Stop ∧
    (Runner.postProcess voc r ⟨[]⟩).1 = r ∧
    (∀ (s : Nat) (a : PostProcessArg), (defaultPostProcess s a).1 = s) := by
  have hlen : 50 < r.tokens.length := by
    by_cases hx : 50 < r.tokens.length
    · exact hx
    · simp [Runner.midProcess, hx] at h
  refine ⟨?_, ?_, fun _ _ => rfl⟩
  · have hgt : 50 < ((Runner.postProcess voc r parg).1).tokens.length := by
      simp only [Runner.postProcess, List.length_append]
      omega
    simp [Runner.midProcess, hgt]
  · cases r with
    | mk ts rec => simp [Runner.postProcess, appendTokens]

theorem c8_stop_persistent_witness :
    Runner.midProcess exVoc (Runner.postProcess exVoc exStoppedR ⟨[2]⟩).1 ⟨[]⟩ =
      .Stop ∧
    (Runner.postProcess exVoc exStoppedR ⟨[]⟩).1 = exStoppedR :=
  ⟨(c8_stop_persistent exVoc exStoppedR ⟨[]⟩ ⟨[]⟩ ⟨[2]⟩ (by decide)).1,
   (c8_stop_persistent exVoc exStoppedR ⟨[]⟩ ⟨[]⟩ ⟨[2]⟩ (by decide)).2.1⟩

end Uppercase

namespace Aici

theorem sfx_zero (tok : TokenId → List Byte) (rest : List TokenId) (suff : List Byte) :
    sfx tok rest suff 0 = suff := by
  cases rest <;> rfl

theorem sfx_nil (tok : TokenId → List Byte) (suff : List Byte) (j : Nat) :
    sfx tok [] suff j = suff := by
  cases j <;> rfl

theorem sfx_cons_succ (tok : TokenId → List Byte) (t : TokenId) (rest : List TokenId)
    (suff : List Byte) (j : Nat) :
    sfx tok (t :: rest) suff (j + 1) = sfx tok rest (tok t ++ suff) j := rfl

/-- The accumulator never shrinks: later suffixes extend earlier ones. -/
theorem sfx_len_le (tok : TokenId → List Byte) (rest : List TokenId)
    (suff : List Byte) (j : Nat) :
    suff.length ≤ (sfx tok rest suff j).length := by
  induction rest generalizing suff j with
  | nil => rw [sfx_nil]
  | cons t rest ih =>
    cases j with
    | zero => rw [sfx_zero]
    | succ j =>
      rw [sfx_cons_succ]
      calc suff.length ≤ (tok t ++ suff).length := by
              rw [List.length_append]; omega
        _ ≤ _ := ih (tok t ++ suff) j

/-- Closed form of the `suff` accumulator: the bytes of the first `j`
processed (reversed) tokens, in original order, before `suff`. -/
theorem sfx_take (tok : TokenId → List Byte) (j : Nat) :
    ∀ (rev : List TokenId) (suff : List Byte), j ≤ rev.length →
      sfx tok rev suff j = ((rev.take j).reverse.map tok).flatten ++ suff := by
  induction j with
  | zero =>
    intro rev suff _
    rw [sfx_zero]
    simp
  | succ j ih =>
    intro rev suff hle
    cases rev with
    | nil => simp at hle
    | cons t rest =>
      rw [sfx_cons_succ, ih rest (tok t ++ suff) (by simpa using hle)]
      simp [List.flatten_append, List.append_assoc]

/-- At the loop's entry point (`rev = g.reverse`, empty accumulator), the
`suff` value after `k` steps is the byte string of the last `k` tokens. -/
theorem sfx_lastBytes (tok : TokenId → List Byte) (g : List TokenId) (k : Nat)
    (hk : k ≤ g.length) :
    sfx tok g.reverse [] k = lastBytes tok g k := by
  rw [sfx_take tok k g.reverse [] (by simpa using hk)]
  rw [List.take_reverse, List.reverse_reverse]
  simp [lastBytes, lastTokens]

/-- Unfolding the chop loop at a token that overflows MAX_TOKEN_LEN: the
loop breaks with the current accumulator. -/
theorem chopLoop_cons_break (tok : TokenId → List Byte) (maxLen : Nat)
    (hve : List Byte → Bool) (t : TokenId) (rest : List TokenId) (suff : List Byte)
    (idx : Nat) (acc : Nat × Nat) (h : (tok t ++ suff).length > maxLen) :
    chopLoop tok maxLen hve (t :: rest) suff idx acc = acc := by
  simp only [chopLoop]
  rw [if_pos h]

/-- Unfolding the chop loop at a token that still fits: recurse with the
extended suffix and the possibly-updated accumulator. -/
theorem chopLoop_cons_cont (tok : TokenId → List Byte) (maxLen : Nat)
    (hve : List Byte → Bool) (t : TokenId) (rest : List TokenId) (suff : List Byte)
    (idx : Nat) (acc : Nat × Nat) (h : ¬(tok t ++ suff).length > maxLen) :
    chopLoop tok maxLen hve (t :: rest) suff idx acc =
      chopLoop tok maxLen hve rest (tok t ++ suff) (idx + 1)
        (if hve (tok t ++ suff) then (idx + 1, (tok t ++ suff).length) else acc) := by
  simp only [chopLoop]
  rw [if_neg h]

/-- The chop loop never decreases the recorded chop amount. -/
theorem chopLoop_ge (tok : TokenId → List Byte) (maxLen : Nat) (hve : List Byte → Bool) :
    ∀ (rest : List TokenId) (suff : List Byte) (idx : Nat) (acc : Nat × Nat),
      acc.1 ≤ idx → acc.1 ≤ (chopLoop tok maxLen hve rest suff idx acc).1 := by
  intro rest
  induction rest with
  | nil => intro suff idx acc _; exact Nat.le_refl _
  | cons t rest ih =>
    intro suff idx acc hacc
    by_cases hlen : (tok t ++ suff).length > maxLen
    · rw [chopLoop_cons_break tok maxLen hve t rest suff idx acc hlen]
    · rw [chopLoop_cons_cont tok maxLen hve t rest suff idx acc hlen]
      by_cases hh : hve (tok t ++ suff) = true
      · rw [if_pos hh]
        exact Nat.le_trans (Nat.le_trans hacc (Nat.le_succ idx))
          (ih (tok t ++ suff) (idx + 1) (idx + 1, (tok t ++ suff).length) (Nat.le_refl _))
      · rw [if_neg (by simpa using hh)]
        exact ih (tok t ++ suff) (idx + 1) acc (Nat.le_trans hacc (Nat.le_succ idx))

/-- Maximality: any admissible chop amount is at most the one the loop
records. -/
theorem chopLoop_max (tok : TokenId → List Byte) (maxLen : Nat) (hve : List Byte → Bool) :
    ∀ (rest : List TokenId) (suff : List Byte) (idx : Nat) (acc : Nat × Nat),
      acc.1 ≤ idx →
      ∀ j, 1 ≤ j → j ≤ rest.length →
        (sfx tok rest suff j).length ≤ maxLen → hve (sfx tok rest suff j) = true →
        idx + j ≤ (chopLoop tok maxLen hve rest suff idx acc).1 := by
  intro rest
  induction rest with
  | nil => intro suff idx acc _ j h1 hlen _ _; simp at hlen; omega
  | cons t rest ih =>
    intro suff idx acc hacc j h1 hjlen hfit hhve
    obtain ⟨j', rfl⟩ : ∃ j', j = j' + 1 := ⟨j - 1, by omega⟩
    rw [sfx_cons_succ] at hfit hhve
    have hsuffle : ¬(tok t ++ suff).length > maxLen := by
      have := Nat.le_trans (sfx_len_le tok rest (tok t ++ suff) j') hfit
      omega
    rw [chopLoop_cons_cont tok maxLen hve t rest suff idx acc hsuffle]
    cases j' with
    | zero =>
      rw [sfx_zero] at hhve
      rw [if_pos hhve]
      exact chopLoop_ge tok maxLen hve rest (tok t ++ suff) (idx + 1)
        (idx + 1, (tok t ++ suff).length) (Nat.le_refl _)
    | succ jj =>
      have hacc' : (if hve (tok t ++ suff) then (idx + 1, (tok t ++ suff).length) else acc).1
          ≤ idx + 1 := by
        by_cases hh : hve (tok t ++ suff) = true
        · rw [if_pos hh]
        · rw [if_neg (by simpa using hh)]
          omega
      have := ih (tok t ++ suff) (idx + 1)
        (if hve (tok t ++ suff) then (idx + 1, (tok t ++ suff).length) else acc) hacc'
        (jj + 1) (by omega) (by simpa using hjlen) hfit hhve
      omega

/-- Soundness: the loop's result is either the starting accumulator or a
pair `(idx + j, |sfx j|)` for an admissible step `j`. -/
theorem chopLoop_sound (tok : TokenId → List Byte) (maxLen : Nat) (hve : List Byte → Bool) :
    ∀ (rest : List TokenId) (suff : List Byte) (idx : Nat) (acc : Nat × Nat),
      chopLoop tok maxLen hve rest suff idx acc = acc ∨
      ∃ j, 1 ≤ j ∧ j ≤ rest.length ∧
        chopLoop tok maxLen hve rest suff idx acc =
          (idx + j, (sfx tok rest suff j).length) ∧
        (sfx tok rest suff j).length ≤ maxLen ∧
        hve (sfx tok rest suff j) = true := by
  intro rest
  induction rest with
  | nil => intro suff idx acc; left; rfl
  | cons t rest ih =>
    intro suff idx acc
    by_cases hlen : (tok t ++ suff).length > maxLen
    · left; exact chopLoop_cons_break tok maxLen hve t rest suff idx acc hlen
    · by_cases hh : hve (tok t ++ suff) = true
      · rcases ih (tok t ++ suff) (idx + 1) (idx + 1, (tok t ++ suff).length) with heq | hex
        · right
          refine ⟨1, Nat.le_refl _, by simp, ?_, ?_, ?_⟩
          · rw [chopLoop_cons_cont tok maxLen hve t rest suff idx acc hlen, if_pos hh,
              heq, sfx_cons_succ, sfx_zero]
          · rw [sfx_cons_succ, sfx_zero]; omega
          · rw [sfx_cons_succ, sfx_zero]; exact hh
        · obtain ⟨j, hj1, hjlen, heq, hfit, hhve2⟩ := hex
          right
          refine ⟨j + 1, by omega, by simpa using hjlen, ?_, ?_, ?_⟩
          · rw [chopLoop_cons_cont tok maxLen hve t rest suff idx acc hlen, if_pos hh,
              heq, sfx_cons_succ]
            congr 1
            omega
          · rw [sfx_cons_succ]; exact hfit
          · rw [sfx_cons_succ]; exact hhve2
      · rcases ih (tok t ++ suff) (idx + 1) acc with heq | hex
        · left
          rw [chopLoop_cons_cont tok maxLen hve t rest suff idx acc hlen,
            if_neg (by simpa using hh)]
          exact heq
        · obtain ⟨j, hj1, hjlen, heq, hfit, hhve2⟩ := hex
          right
          refine ⟨j + 1, by omega, by simpa using hjlen, ?_, ?_, ?_⟩
          · rw [chopLoop_cons_cont tok maxLen hve t rest suff idx acc hlen,
              if_neg (by simpa using hh), heq, sfx_cons_succ]
            congr 1
            omega
          · rw [sfx_cons_succ]; exact hfit
          · rw [sfx_cons_succ]; exact hhve2

/-- C5: the chop performed by `mid_process` removes exactly the greatest
`k` (0 if none) such that the byte string of the last `k` tokens of
`grm_tokens` has length at most MAX_TOKEN_LEN and
`has_valid_extensions` holds for it; `chop_bytes` is the length of that
byte string, and `grm_tokens` is truncated by exactly `chop_tokens`
tokens before splice detection. -/
theorem c5_chop_greatest {P : Type} (env : Env P) (st : TokenParser P)
    (arg : MidProcessArg) :
    (∀ k, goodChop env.trie.token env.trie.maxTokenLen
        (env.hasValidExtensions (parserAfterForce env st arg))
        (grmTokensRaw env st arg) k = true →
      k ≤ (chopPair env st arg).1) ∧
    ((chopPair env st arg).1 = 0 ∨
      goodChop env.trie.token env.trie.maxTokenLen
        (env.hasValidExtensions (parserAfterForce env st arg))
        (grmTokensRaw env st arg) (chopPair env st arg).1 = true) ∧
    (chopPair env st arg).2 =
      (lastBytes env.trie.token (grmTokensRaw env st arg) (chopPair env st arg).1).length ∧
    grmTokens env st arg =
      (grmTokensRaw env st arg).take
        ((grmTokensRaw env st arg).length - (chopPair env st arg).1) := by
  set tok := env.trie.token with htok
  set maxLen := env.trie.maxTokenLen with hmaxLen
  set hve := env.hasValidExtensions (parserAfterForce env st arg) with hhvedef
  set g := grmTokensRaw env st arg with hg
  have hchop : chopPair env st arg = chopLoop tok maxLen hve g.reverse [] 0 (0, 0) := rfl
  have htrunc : grmTokens env st arg = g.take (g.length - (chopPair env st arg).1) := rfl
  have hmax : ∀ k, goodChop tok maxLen hve g k = true → k ≤ (chopPair env st arg).1 := by
    intro k hk
    simp only [goodChop, Bool.and_eq_true, decide_eq_true_eq] at hk
    obtain ⟨⟨⟨hk1, hk2⟩, hk3⟩, hk4⟩ := hk
    rw [hchop]
    have := chopLoop_max tok maxLen hve g.reverse [] 0 (0, 0) (Nat.le_refl _) k hk1
      (by simpa using hk2)
      (by rw [sfx_lastBytes tok g k hk2]; exact hk3)
      (by rw [sfx_lastBytes tok g k hk2]; exact hk4)
    omega
  rcases chopLoop_sound tok maxLen hve g.reverse [] 0 (0, 0) with heq | hex
  · have h1 : (chopPair env st arg).1 = 0 := by rw [hchop, heq]
    have h2 : (chopPair env st arg).2 = 0 := by rw [hchop, heq]
    refine ⟨hmax, Or.inl h1, ?_, htrunc⟩
    rw [h1, h2]
    simp [lastBytes, lastTokens, List.drop_length]
  · obtain ⟨j, hj1, hjlen, heq, hfit, hhve⟩ := hex
    have hjg : j ≤ g.length := by simpa using hjlen
    have hsfx : sfx tok g.reverse [] j = lastBytes tok g j := sfx_lastBytes tok g j hjg
    have h1 : (chopPair env st arg).1 = j := by rw [hchop, heq]; simp
    have h2 : (chopPair env st arg).2 = (lastBytes tok g j).length := by
      rw [hchop, heq, hsfx]
    refine ⟨hmax, Or.inr ?_, ?_, htrunc⟩
    · rw [h1]
      simp only [goodChop, Bool.and_eq_true, decide_eq_true_eq]
      exact ⟨⟨⟨hj1, hjg⟩, hsfx ▸ hfit⟩, hsfx ▸ hhve⟩
    · rw [h2, h1]

theorem c5_chop_greatest_witness :
    goodChop ex5Env.trie.token ex5Env.trie.maxTokenLen
      (ex5Env.hasValidExtensions (parserAfterForce ex5Env ex1St ex1Arg))
      (grmTokensRaw ex5Env ex1St ex1Arg) 1 = true ∧
    1 ≤ (chopPair ex5Env ex1St ex1Arg).1 ∧
    (chopPair ex5Env ex1St ex1Arg).2 =
      (lastBytes ex5Env.trie.token (grmTokensRaw ex5Env ex1St ex1Arg)
        (chopPair ex5Env ex1St ex1Arg).1).length :=
  ⟨by decide,
   (c5_chop_greatest ex5Env ex1St ex1Arg).1 1 (by decide),
   (c5_chop_greatest ex5Env ex1St ex1Arg).2.2.1⟩

end Aici

namespace Aici

/-- C6: in every call that proceeds past splice detection (no EOS, no
token disagreement) and returns without panicking, one of `llm_suffix`
and `grm_suffix` is a prefix of the other; when `grm_suffix` is strictly
shorter, the extra LLM bytes are scanned into the parser (each scan must
accept — a reject would be the `"rejected byte"` panic, contradicting
the `.ok` return) and the bias is computed by `compute_bias_ext` over
the empty byte suffix; otherwise the parser is left as is and the bias
is computed over `grm_suffix` with the `llm_suffix` prefix removed. -/
theorem c6_suffix_invariant {P : Type} (env : Env P) (st : TokenParser P)
    (arg : MidProcessArg) (r : MidProcessResult) (st' : TokenParser P)
    (hno : env.trie.eosToken ∉ arg.tokens)
    (hagree : firstDisagreement (updatedLlm st arg) (grmTokens env st arg) 0 = none)
    (hok : midProcess env st arg = .ok (r, st')) :
    (llmSuffix env st arg <+: grmSuffix env st arg ∨
      grmSuffix env st arg <+: llmSuffix env st arg) ∧
    (if (grmSuffix env st arg).length < (llmSuffix env st arg).length then
      scanBytes env (parserAfterForce env st arg)
          ((llmSuffix env st arg).drop (grmSuffix env st arg).length) = .ok st'.parser ∧
        r = .SampleWithBias (env.computeBiasExt st'.parser [])
    else
      st'.parser = parserAfterForce env st arg ∧
        r = .SampleWithBias (env.computeBiasExt (parserAfterForce env st arg)
          ((grmSuffix env st arg).drop (llmSuffix env st arg).length))) := by
  simp only [midProcess, hagree] at hok
  rw [if_neg hno] at hok
  split at hok
  · next hlt =>
    split at hok
    · next hpre =>
      cases hsc : scanBytes env (parserAfterForce env st arg)
          ((llmSuffix env st arg).drop (grmSuffix env st arg).length) with
      | error e =>
        rw [hsc] at hok
        simp at hok
      | ok p' =>
        rw [hsc] at hok
        simp only [Except.ok.injEq, Prod.mk.injEq] at hok
        obtain ⟨hr, hst⟩ := hok
        refine ⟨Or.inr (List.isPrefixOf_iff_prefix.mp hpre), ?_⟩
        rw [if_pos hlt]
        have hp : st'.parser = p' := by rw [← hst]
        rw [hp]
        exact ⟨rfl, hr.symm⟩
    · next hpre =>
      simp at hok
  · next hge =>
    split at hok
    · next hpre =>
      simp only [Except.ok.injEq, Prod.mk.injEq] at hok
      obtain ⟨hr, hst⟩ := hok
      refine ⟨Or.inl (List.isPrefixOf_iff_prefix.mp hpre), ?_⟩
      rw [if_neg hge]
      have hp : st'.parser = parserAfterForce env st arg := by rw [← hst]
      exact ⟨hp, hr.symm⟩
    · next hpre =>
      simp at hok

theorem c6_suffix_invariant_witness :
    llmSuffix ex2Env ⟨(), []⟩ ⟨[5]⟩ <+: grmSuffix ex2Env ⟨(), []⟩ ⟨[5]⟩ ∨
    grmSuffix ex2Env ⟨(), []⟩ ⟨[5]⟩ <+: llmSuffix ex2Env ⟨(), []⟩ ⟨[5]⟩ :=
  (c6_suffix_invariant ex2Env ⟨(), []⟩ ⟨[5]⟩ (.SampleWithBias [7]) ⟨(), [5]⟩
    (by decide) (by decide) (by decide)).1

end Aici
